import Mathlib

/-!
Shallow embedding of `1-max-diff-scaling.py`, a MaxDiff (best-worst scaling)
simulator and simple-count scorer.

Modelling conventions:
* Python's global `random` stream is modelled by `RNG`: an abstract stream of
  naturals together with a position.  `random.sample` and `random.choice`
  consume stream values; an index into a collection of size `n` is obtained as
  `stream pos % n`.  The exact pseudo-random algorithm is irrelevant to every
  property below: all of them hold for an arbitrary stream.
* Exceptions (`ValueError` from `random.sample`, `IndexError` from
  `random.choice` on an empty sequence) are modelled by `Option`: `none` means
  the Python code raises.
* Floating-point NaN (the scorer's representation of "undefined") is modelled
  by `Option ℚ`: `none` is NaN.  All arithmetic the claims touch is exact in
  `ℚ`.
* `SE = sqrt((pM*(1-pM) + pL*(1-pL))/Shown)` is irrational, so the row stores
  the radicand `seSq` (the expression under `np.sqrt`); `np.sqrt` maps NaN to
  NaN and is defined on every non-NaN radicand arising here, so `seSq = none`
  exactly when the Python `SE` is NaN.  Likewise `CI_L = Score - 1.96*SE` and
  `CI_U = Score + 1.96*SE` are stored as the pair (Score, radicand); they are
  `none` exactly when the Python value is NaN.
* `pandas.sort_values("Score", ascending=False, ignore_index=True)` puts NaN
  rows last (`na_position="last"`), sorts defined scores descending, and on
  this table (a handful of rows, far below numpy's small-sort threshold where
  `argsort` is an insertion sort, applied by `nargsort` to the reversed frame
  and un-reversed afterwards) keeps tied rows in their original catalog order.
  It is modelled as a stable insertion sort with the order `gtB`
  (descending, NaN last).
* `round(3)` and CSV/PNG rendering are deterministic post-processing of the
  scored table and are not modelled; the claims are settled on the table.
-/

namespace MaxDiff

/-- The process-wide random stream: an abstract infinite sequence of naturals
    plus the current position.  Models Python's global `random` state. -/
structure RNG where
  stream : Nat → Nat
  pos : Nat

/-- Draw one stream value reduced modulo `n` (an index into a size-`n`
    collection) and advance the stream. -/
def randIdx (rng : RNG) (n : Nat) : Nat × RNG :=
  (rng.stream rng.pos % n, ⟨rng.stream, rng.pos + 1⟩)

/-- `random.sample(pool, k)` drawn one element at a time: pick an index into
    the remaining pool, remove the picked element, recurse.  Returns `none`
    (Python: raises) exactly when `k` exceeds the pool size. -/
def sampleAux : Nat → List String → RNG → Option (List String × RNG)
  | 0, _, rng => some ([], rng)
  | k + 1, pool, rng =>
    if h : 0 < pool.length then
      let p := randIdx rng pool.length
      let x := pool.get ⟨p.1, Nat.mod_lt _ h⟩
      match sampleAux k (pool.eraseIdx p.1) p.2 with
      | some (rest, rng') => some (x :: rest, rng')
      | none => none
    else none

/-- `random.sample(pool, k)`: `k` distinct positions of `pool`, without
    replacement. -/
def sample (pool : List String) (k : Nat) (rng : RNG) : Option (List String × RNG) :=
  sampleAux k pool rng

/-- `random.choice(l)`: a uniformly drawn element of `l`; raises (here:
    `none`) on an empty sequence. -/
def choice (l : List String) (rng : RNG) : Option (String × RNG) :=
  if h : 0 < l.length then
    let p := randIdx rng l.length
    some (l.get ⟨p.1, Nat.mod_lt _ h⟩, p.2)
  else none

/-- One simulated record of `simulate_maxdiff`:
    `(resp, choice_set, most, least)`. -/
structure Trial where
  resp : Nat
  set : List String
  most : String
  least : String
deriving DecidableEq, Repr

/-- The body of the inner loop of `simulate_maxdiff`:
    `choice_set = random.sample(items, items_per_set)`,
    `most = random.choice(choice_set)`,
    `least_pool = [i for i in choice_set if i != most]`,
    `least = random.choice(least_pool)`. -/
def genTrial (items : List String) (K resp : Nat) (rng : RNG) : Option (Trial × RNG) :=
  match sample items K rng with
  | none => none
  | some (cset, rng1) =>
    match choice cset rng1 with
    | none => none
    | some (most, rng2) =>
      match choice (cset.filter (fun i => i != most)) rng2 with
      | none => none
      | some (least, rng3) => some (⟨resp, cset, most, least⟩, rng3)

/-- The inner `for _ in range(sets_per_resp)` loop: `s` trials for respondent
    `resp`, threading the random stream. -/
def genSets (items : List String) (K resp : Nat) : Nat → RNG → Option (List Trial × RNG)
  | 0, rng => some ([], rng)
  | s + 1, rng =>
    match genTrial items K resp rng with
    | none => none
    | some (t, rng') =>
      match genSets items K resp s rng' with
      | none => none
      | some (ts, rng'') => some (t :: ts, rng'')

/-- The outer `for resp in range(n_respondents)` loop over a list of
    respondent indices. -/
def simAux (items : List String) (K S : Nat) : List Nat → RNG → Option (List Trial × RNG)
  | [], rng => some ([], rng)
  | r :: rs, rng =>
    match genSets items K r S rng with
    | none => none
    | some (ts, rng') =>
      match simAux items K S rs rng' with
      | none => none
      | some (ts', rng'') => some (ts ++ ts', rng'')

/-- `simulate_maxdiff(items, n_respondents, sets_per_resp, items_per_set)`:
    the full trial table (`none` = the Python call raises). -/
def simulate_maxdiff (items : List String) (R S K : Nat) (rng : RNG) :
    Option (List Trial) :=
  (simAux items K S (List.range R) rng).map Prod.fst

/-- Well-formedness of one generated trial with respect to the catalog and
    the set size: `K` items from the catalog (distinct when the catalog is
    duplicate-free), most and least drawn from the choice set, most ≠ least. -/
def TrialOK (items : List String) (K : Nat) (t : Trial) : Prop :=
  t.set.length = K ∧ (∀ x ∈ t.set, x ∈ items) ∧ (items.Nodup → t.set.Nodup) ∧
  t.most ∈ t.set ∧ t.least ∈ t.set ∧ t.most ≠ t.least

/-- `df["Set"].explode().value_counts().reindex(items, fill_value=0)` at one
    item: occurrences of `i` across all choice sets. -/
def countShown (df : List Trial) (i : String) : Nat :=
  ((df.map Trial.set).flatten).count i

/-- `df["Most"].value_counts().reindex(items, fill_value=0)` at one item. -/
def countMost (df : List Trial) (i : String) : Nat :=
  df.countP (fun t => t.most == i)

/-- `df["Least"].value_counts().reindex(items, fill_value=0)` at one item. -/
def countLeast (df : List Trial) (i : String) : Nat :=
  df.countP (fun t => t.least == i)

/-- One row of the frame assembled by `simple_count_scores` before sorting:
    counts, `Score`, the radicand of `SE`, and the CI bounds.
    `score = (Most - Least) / Shown` with `Shown` zero replaced by NaN;
    `seSq` is the expression under `np.sqrt` in
    `SE = sqrt((pM*(1-pM) + pL*(1-pL))/Shown)`;
    `ciL`/`ciU` hold the pair (Score, seSq) standing for
    `Score ∓ 1.96*sqrt(seSq)`; each field is `none` exactly when the
    corresponding Python float is NaN. -/
structure ItemRow where
  item : String
  most : Nat
  least : Nat
  shown : Nat
  score : Option ℚ
  seSq : Option ℚ
  ciL : Option (ℚ × ℚ)
  ciU : Option (ℚ × ℚ)
deriving DecidableEq, Repr

/-- Build the row of item `i` (lines 76-102 of the source, one item of the
    reindexed frame). -/
def mkRow (df : List Trial) (i : String) : ItemRow :=
  let m := countMost df i
  let l := countLeast df i
  let s := countShown df i
  let score : Option ℚ := if s = 0 then none else some (((m : ℚ) - (l : ℚ)) / (s : ℚ))
  let seSq : Option ℚ :=
    if s = 0 then none else
      some ((((m : ℚ) / s) * (1 - (m : ℚ) / s) + ((l : ℚ) / s) * (1 - (l : ℚ) / s)) / s)
  { item := i, most := m, least := l, shown := s, score := score, seSq := seSq,
    ciL := match score, seSq with
           | some a, some b => some (a, b)
           | _, _ => none,
    ciU := match score, seSq with
           | some a, some b => some (a, b)
           | _, _ => none }

/-- The strict "greater" test of the descending sort on `Score` columns:
    a defined score beats NaN (`na_position="last"`), and defined scores
    compare as rationals. -/
def gtB : Option ℚ → Option ℚ → Bool
  | some x, some y => decide (y < x)
  | some _, none => true
  | none, _ => false

/-- Stable insertion of a row into a list sorted descending by score:
    the new row goes in front of the first row that is not strictly greater,
    so rows with equal keys keep their relative order. -/
def insertDesc (r : ItemRow) : List ItemRow → List ItemRow
  | [] => [r]
  | y :: ys => if gtB y.score r.score then y :: insertDesc r ys else r :: y :: ys

/-- `out.sort_values("Score", ascending=False, ignore_index=True)`:
    stable sort, descending on `Score`, NaN rows last. -/
def sortRows (l : List ItemRow) : List ItemRow :=
  l.foldr insertDesc []

/-- `Series.min()` with `skipna=True` over the defined values: `none` on an
    all-NaN column. -/
def qmin? : List ℚ → Option ℚ
  | [] => none
  | x :: xs => some (xs.foldl min x)

/-- `Series.max()` with `skipna=True` over the defined values. -/
def qmax? : List ℚ → Option ℚ
  | [] => none
  | x :: xs => some (xs.foldl max x)

/-- `out["Score"].min()` of the sorted frame (NaN entries skipped). -/
def scoreMin (df : List Trial) (items : List String) : Option ℚ :=
  qmin? ((sortRows (items.map (mkRow df))).filterMap ItemRow.score)

/-- `out["Score"].max()` of the sorted frame (NaN entries skipped). -/
def scoreMax (df : List Trial) (items : List String) : Option ℚ :=
  qmax? ((sortRows (items.map (mkRow df))).filterMap ItemRow.score)

/-- `np.where(span > 0, (Score - min_s)/span*100, 50.0)` at one row.
    `span = max_s - min_s` is NaN when either end is (all-NaN column), and
    `NaN > 0` is false, so the whole column becomes `50.0` then; when
    `span > 0` a NaN score yields a NaN scaled value. -/
def scaledVal (mn mx : Option ℚ) (sc : Option ℚ) : Option ℚ :=
  match mn, mx with
  | some a, some b =>
    if 0 < b - a then sc.map (fun s => (s - a) / (b - a) * 100) else some 50
  | _, _ => some 50

/-- One row of the final table of `simple_count_scores`: the sorted row plus
    `Scaled_0_100` and the 1-based `Rank`. -/
structure Scored where
  rank : Nat
  item : String
  most : Nat
  least : Nat
  shown : Nat
  score : Option ℚ
  seSq : Option ℚ
  ciL : Option (ℚ × ℚ)
  ciU : Option (ℚ × ℚ)
  scaled : Option ℚ
deriving DecidableEq, Repr

/-- Attach `Scaled_0_100` and rank `n` to a sorted row. -/
def mkScored (n : Nat) (mn mx : Option ℚ) (r : ItemRow) : Scored :=
  ⟨n, r.item, r.most, r.least, r.shown, r.score, r.seSq, r.ciL, r.ciU,
    scaledVal mn mx r.score⟩

/-- `out["Rank"] = np.arange(1, len(out) + 1)` together with the
    `Scaled_0_100` column: rank `n` for the head, `n+1` for the next row, … -/
def attachRanks (mn mx : Option ℚ) : Nat → List ItemRow → List Scored
  | _, [] => []
  | n, r :: rs => mkScored n mn mx r :: attachRanks mn mx (n + 1) rs

/-- `simple_count_scores(df, items)`: one row per catalog item in catalog
    order, sorted by score descending (stable, NaN last), with scaling and
    1-based ranks. -/
def simple_count_scores (df : List Trial) (items : List String) : List Scored :=
  attachRanks (scoreMin df items) (scoreMax df items) 1
    (sortRows (items.map (mkRow df)))

/-- The hard-coded retail catalog of `main`. -/
def retailItems : List String :=
  ["Free Shipping", "Same-Day Delivery", "Easy Returns",
   "Extended Warranty", "Loyalty Points", "Discount Coupons"]

/-- `set_seed(seed)`: reseed the process RNG, discarding whatever state it
    had.  `stream` is the pseudo-random algorithm (stream as a function of the
    seed); reseeding rewinds the position to 0. -/
def set_seed (stream : Nat → Nat → Nat) (seed : Nat) : RNG :=
  ⟨stream seed, 0⟩

/-- `main(out_dir, n_respondents, sets_per_resp, items_per_set)` up to the
    scored table: `set_seed(42)` then simulate then score on the retail
    catalog.  `procRng` is the RNG state the process happens to be in before
    `main` runs; `set_seed` overwrites it.  Rounding to 3 decimals, CSV
    export and plotting are deterministic functions of this table. -/
def mainTable (stream : Nat → Nat → Nat) (procRng : RNG) (R S K : Nat) :
    Option (List Scored) :=
  let rng := set_seed stream 42
  let _ := procRng
  (simulate_maxdiff retailItems R S K rng).map
    (fun df => simple_count_scores df retailItems)

/-- A concrete random stream used to exercise the definitions. -/
def rngZero : RNG := ⟨fun _ => 0, 0⟩

/-- A one-trial table over the catalog `itemsEx` in which item "C" never
    appears. -/
def dfEx : List Trial := [⟨0, ["A", "B"], "A", "B"⟩]

/-- A three-item catalog. -/
def itemsEx : List String := ["A", "B", "C"]

/-- An empty trial table. -/
def dfEmpty : List Trial := []

/-- A one-item catalog. -/
def itemsOne : List String := ["X"]

/-! ### Order facts about the sort key -/

theorem gtB_irrefl (s : Option ℚ) : gtB s s = false := by
  cases s <;> simp [gtB]

theorem gtB_asymm {a b : Option ℚ} (h : gtB a b = true) : gtB b a = false := by
  cases a <;> cases b <;> simp_all [gtB]
  linarith

theorem gtB_le_trans {a b c : Option ℚ} (h1 : gtB a b = false)
    (h2 : gtB b c = false) : gtB a c = false := by
  cases a <;> cases b <;> cases c <;> simp_all [gtB]
  linarith

/-! ### The stable descending sort -/

theorem insertDesc_perm (r : ItemRow) :
    ∀ m : List ItemRow, (insertDesc r m).Perm (r :: m) := by
  intro m
  induction m with
  | nil => exact List.Perm.refl _
  | cons y ys ih =>
    cases hgt : gtB y.score r.score with
    | true =>
      simp only [insertDesc, hgt, if_true]
      exact (ih.cons y).trans (List.Perm.swap r y ys)
    | false =>
      simp only [insertDesc, hgt, if_false]
      exact List.Perm.refl _

theorem sortRows_perm : ∀ l : List ItemRow, (sortRows l).Perm l := by
  intro l
  induction l with
  | nil => exact List.Perm.refl _
  | cons a t ih =>
    have : sortRows (a :: t) = insertDesc a (sortRows t) := rfl
    rw [this]
    exact (insertDesc_perm a (sortRows t)).trans (ih.cons a)

theorem mem_insertDesc {x r : ItemRow} {m : List ItemRow} :
    x ∈ insertDesc r m ↔ x = r ∨ x ∈ m := by
  rw [(insertDesc_perm r m).mem_iff, List.mem_cons]

theorem insertDesc_sorted {r : ItemRow} {m : List ItemRow}
    (hm : m.Pairwise (fun a b => gtB b.score a.score = false)) :
    (insertDesc r m).Pairwise (fun a b => gtB b.score a.score = false) := by
  induction m with
  | nil => simp [insertDesc]
  | cons y ys ih =>
    rcases List.pairwise_cons.mp hm with ⟨hy, hys⟩
    cases hgt : gtB y.score r.score with
    | true =>
      simp only [insertDesc, hgt, if_true]
      refine List.pairwise_cons.mpr ⟨?_, ih hys⟩
      intro z hz
      rcases mem_insertDesc.mp hz with rfl | hz'
      · exact gtB_asymm hgt
      · exact hy z hz'
    | false =>
      simp only [insertDesc, hgt, if_false]
      refine List.pairwise_cons.mpr ⟨?_, hm⟩
      intro z hz
      rcases List.mem_cons.mp hz with rfl | hz'
      · exact hgt
      · exact gtB_le_trans (hy z hz') hgt

theorem sortRows_sorted :
    ∀ l : List ItemRow,
      (sortRows l).Pairwise (fun a b => gtB b.score a.score = false) := by
  intro l
  induction l with
  | nil => simp [sortRows]
  | cons a t ih =>
    have : sortRows (a :: t) = insertDesc a (sortRows t) := rfl
    rw [this]
    exact insertDesc_sorted ih

theorem insertDesc_stable {Q : ItemRow → ItemRow → Prop} {r : ItemRow}
    {m : List ItemRow}
    (hr : ∀ z ∈ m, r.score = z.score → Q r z)
    (hm : m.Pairwise (fun a b => a.score = b.score → Q a b)) :
    (insertDesc r m).Pairwise (fun a b => a.score = b.score → Q a b) := by
  induction m with
  | nil => simp [insertDesc]
  | cons y ys ih =>
    rcases List.pairwise_cons.mp hm with ⟨hy, hys⟩
    cases hgt : gtB y.score r.score with
    | true =>
      simp only [insertDesc, hgt, if_true]
      refine List.pairwise_cons.mpr
        ⟨?_, ih (fun z hz => hr z (List.mem_cons_of_mem y hz)) hys⟩
      intro z hz
      rcases mem_insertDesc.mp hz with rfl | hz'
      · intro heq
        rw [heq] at hgt
        rw [gtB_irrefl] at hgt
        exact absurd hgt (by simp)
      · exact hy z hz'
    | false =>
      simp only [insertDesc, hgt, if_false]
      refine List.pairwise_cons.mpr ⟨?_, hm⟩
      intro z hz heq
      exact hr z hz heq

theorem sortRows_stable {Q : ItemRow → ItemRow → Prop} {l : List ItemRow}
    (hl : l.Pairwise Q) :
    (sortRows l).Pairwise (fun a b => a.score = b.score → Q a b) := by
  induction l with
  | nil => simp [sortRows]
  | cons a t ih =>
    rcases List.pairwise_cons.mp hl with ⟨ha, ht⟩
    have heq : sortRows (a :: t) = insertDesc a (sortRows t) := rfl
    rw [heq]
    refine insertDesc_stable ?_ (ih ht)
    intro z hz _
    exact ha z ((sortRows_perm t).mem_iff.mp hz)

/-! ### Rank/scale attachment -/

theorem attachRanks_map_rank (mn mx : Option ℚ) :
    ∀ (n : Nat) (l : List ItemRow),
      (attachRanks mn mx n l).map Scored.rank = List.range' n l.length := by
  intro n l
  induction l generalizing n with
  | nil => simp [attachRanks]
  | cons r rs ih =>
    simp [attachRanks, mkScored, List.range'_succ, ih]

theorem length_attachRanks (mn mx : Option ℚ) (n : Nat) (l : List ItemRow) :
    (attachRanks mn mx n l).length = l.length := by
  have h := congrArg List.length (attachRanks_map_rank mn mx n l)
  simpa using h

theorem mem_attachRanks {mn mx : Option ℚ} :
    ∀ {n : Nat} {l : List ItemRow} {x : Scored},
      x ∈ attachRanks mn mx n l → ∃ m r, r ∈ l ∧ x = mkScored m mn mx r := by
  intro n l
  induction l generalizing n with
  | nil => intro x hx; simp [attachRanks] at hx
  | cons r rs ih =>
    intro x hx
    rcases List.mem_cons.mp hx with rfl | hx'
    · exact ⟨n, r, List.mem_cons_self r rs, rfl⟩
    · rcases ih hx' with ⟨m, r', hr', hx''⟩
      exact ⟨m, r', List.mem_cons_of_mem r hr', hx''⟩

theorem attachRanks_pairwise {R : ItemRow → ItemRow → Prop}
    {R' : Scored → Scored → Prop} {mn mx : Option ℚ}
    (hcomp : ∀ n m r r', R r r' → R' (mkScored n mn mx r) (mkScored m mn mx r')) :
    ∀ {n : Nat} {l : List ItemRow}, l.Pairwise R →
      (attachRanks mn mx n l).Pairwise R' := by
  intro n l
  induction l generalizing n with
  | nil => intro _; simp [attachRanks]
  | cons r rs ih =>
    intro hl
    rcases List.pairwise_cons.mp hl with ⟨hr, hrs⟩
    refine List.pairwise_cons.mpr ⟨?_, ih hrs⟩
    intro x hx
    rcases mem_attachRanks hx with ⟨m, r', hr', rfl⟩
    exact hcomp _ _ _ _ (hr r' hr')

theorem attachRanks_map_field {β : Type} {F : Scored → β} {G : ItemRow → β}
    {mn mx : Option ℚ} (h : ∀ n r, F (mkScored n mn mx r) = G r) :
    ∀ (n : Nat) (l : List ItemRow),
      (attachRanks mn mx n l).map F = l.map G := by
  intro n l
  induction l generalizing n with
  | nil => simp [attachRanks]
  | cons r rs ih => simp [attachRanks, h, ih]

/-! ### `Series.min` / `Series.max` over defined values -/

theorem foldl_min_le_init : ∀ (xs : List ℚ) (x : ℚ), xs.foldl min x ≤ x := by
  intro xs
  induction xs with
  | nil => intro x; exact le_refl x
  | cons y ys ih =>
    intro x
    exact le_trans (ih (min x y)) (min_le_left x y)

theorem foldl_min_le_mem :
    ∀ (xs : List ℚ) (x b : ℚ), b ∈ xs → xs.foldl min x ≤ b := by
  intro xs
  induction xs with
  | nil => intro x b hb; simp at hb
  | cons y ys ih =>
    intro x b hb
    rcases List.mem_cons.mp hb with rfl | hb'
    · exact le_trans (foldl_min_le_init ys (min x b)) (min_le_right x b)
    · exact ih (min x y) b hb'

theorem foldl_max_init_le : ∀ (xs : List ℚ) (x : ℚ), x ≤ xs.foldl max x := by
  intro xs
  induction xs with
  | nil => intro x; exact le_refl x
  | cons y ys ih =>
    intro x
    exact le_trans (le_max_left x y) (ih (max x y))

theorem foldl_max_mem_le :
    ∀ (xs : List ℚ) (x b : ℚ), b ∈ xs → b ≤ xs.foldl max x := by
  intro xs
  induction xs with
  | nil => intro x b hb; simp at hb
  | cons y ys ih =>
    intro x b hb
    rcases List.mem_cons.mp hb with rfl | hb'
    · exact le_trans (le_max_right x b) (foldl_max_init_le ys (max x b))
    · exact ih (max x y) b hb'

theorem qmin?_le {l : List ℚ} {a : ℚ} (h : qmin? l = some a) :
    ∀ b ∈ l, a ≤ b := by
  cases l with
  | nil => simp [qmin?] at h
  | cons x xs =>
    simp only [qmin?, Option.some.injEq] at h
    intro b hb
    rcases List.mem_cons.mp hb with rfl | hb'
    · rw [← h]; exact foldl_min_le_init xs b
    · rw [← h]; exact foldl_min_le_mem xs x b hb'

theorem qmax?_ge {l : List ℚ} {b : ℚ} (h : qmax? l = some b) :
    ∀ a ∈ l, a ≤ b := by
  cases l with
  | nil => simp [qmax?] at h
  | cons x xs =>
    simp only [qmax?, Option.some.injEq] at h
    intro a ha
    rcases List.mem_cons.mp ha with rfl | ha'
    · rw [← h]; exact foldl_max_init_le xs a
    · rw [← h]; exact foldl_max_mem_le xs x a ha'

theorem qmin?_isSome {l : List ℚ} (h : l ≠ []) : ∃ a, qmin? l = some a := by
  cases l with
  | nil => exact absurd rfl h
  | cons x xs => exact ⟨xs.foldl min x, rfl⟩

theorem qmin?_none {l : List ℚ} (h : qmin? l = none) : l = [] := by
  cases l with
  | nil => rfl
  | cons x xs => simp [qmin?] at h

theorem qmax?_none {l : List ℚ} (h : qmax? l = none) : l = [] := by
  cases l with
  | nil => rfl
  | cons x xs => simp [qmax?] at h

/-! ### Counting facts -/

theorem countShown_cons (t : Trial) (df : List Trial) (i : String) :
    countShown (t :: df) i = t.set.count i + countShown df i := by
  simp [countShown]

theorem countMost_cons (t : Trial) (df : List Trial) (i : String) :
    countMost (t :: df) i = countMost df i + (if t.most == i then 1 else 0) := by
  simp [countMost, List.countP_cons]

theorem countLeast_cons (t : Trial) (df : List Trial) (i : String) :
    countLeast (t :: df) i = countLeast df i + (if t.least == i then 1 else 0) := by
  simp [countLeast, List.countP_cons]

theorem countMost_le_countShown {df : List Trial}
    (h : ∀ t ∈ df, t.most ∈ t.set) (i : String) :
    countMost df i ≤ countShown df i := by
  induction df with
  | nil => simp [countMost, countShown]
  | cons t rest ih =>
    have hm := h t (List.mem_cons_self t rest)
    have ihr := ih (fun u hu => h u (List.mem_cons_of_mem t hu))
    rw [countMost_cons, countShown_cons]
    by_cases he : (t.most == i) = true
    · have heq : t.most = i := by simpa using he
      have hpos : 0 < t.set.count i := List.count_pos_iff.mpr (heq ▸ hm)
      rw [if_pos he]
      omega
    · rw [if_neg he]
      omega

theorem countLeast_le_countShown {df : List Trial}
    (h : ∀ t ∈ df, t.least ∈ t.set) (i : String) :
    countLeast df i ≤ countShown df i := by
  induction df with
  | nil => simp [countLeast, countShown]
  | cons t rest ih =>
    have hm := h t (List.mem_cons_self t rest)
    have ihr := ih (fun u hu => h u (List.mem_cons_of_mem t hu))
    rw [countLeast_cons, countShown_cons]
    by_cases he : (t.least == i) = true
    · have heq : t.least = i := by simpa using he
      have hpos : 0 < t.set.count i := List.count_pos_iff.mpr (heq ▸ hm)
      rw [if_pos he]
      omega
    · rw [if_neg he]
      omega

theorem countMost_add_countLeast_le_countShown {df : List Trial}
    (h : ∀ t ∈ df, t.most ∈ t.set ∧ t.least ∈ t.set ∧ t.most ≠ t.least)
    (i : String) :
    countMost df i + countLeast df i ≤ countShown df i := by
  induction df with
  | nil => simp [countMost, countLeast, countShown]
  | cons t rest ih =>
    obtain ⟨hmost, hleast, hne⟩ := h t (List.mem_cons_self t rest)
    have ihr := ih (fun u hu => h u (List.mem_cons_of_mem t hu))
    rw [countMost_cons, countLeast_cons, countShown_cons]
    by_cases hm : (t.most == i) = true
    · by_cases hl : (t.least == i) = true
      · have hm' : t.most = i := by simpa using hm
        have hl' : t.least = i := by simpa using hl
        exact absurd (hm'.trans hl'.symm) hne
      · have hm' : t.most = i := by simpa using hm
        have hpos : 0 < t.set.count i := List.count_pos_iff.mpr (hm' ▸ hmost)
        rw [if_pos hm, if_neg hl]
        omega
    · by_cases hl : (t.least == i) = true
      · have hl' : t.least = i := by simpa using hl
        have hpos : 0 < t.set.count i := List.count_pos_iff.mpr (hl' ▸ hleast)
        rw [if_neg hm, if_pos hl]
        omega
      · rw [if_neg hm, if_neg hl]
        omega

/-- Summing `f i + g i` over a list splits into two sums. -/
theorem sum_map_add {α : Type} (l : List α) (f g : α → Nat) :
    (l.map (fun i => f i + g i)).sum = (l.map f).sum + (l.map g).sum := by
  induction l with
  | nil => simp
  | cons a t ih => simp [ih]; omega

/-- Summing the indicator of an absent `x` over a list gives 0. -/
theorem sum_indicator_of_not_mem :
    ∀ (items : List String) (x : String), x ∉ items →
      (items.map (fun i => if x == i then 1 else 0)).sum = 0 := by
  intro items
  induction items with
  | nil => intro x _; simp
  | cons a t ih =>
    intro x hx
    have h1 : ¬(x == a) = true := by
      simp only [beq_iff_eq]
      rintro rfl
      exact hx (List.mem_cons_self x t)
    have h2 : x ∉ t := fun hm => hx (List.mem_cons_of_mem a hm)
    simp only [List.map_cons, List.sum_cons, if_neg h1, ih x h2]

/-- Summing the indicator of `x` over a duplicate-free list containing `x`
    gives exactly 1. -/
theorem sum_indicator_of_mem :
    ∀ (items : List String) (x : String), items.Nodup → x ∈ items →
      (items.map (fun i => if x == i then 1 else 0)).sum = 1 := by
  intro items
  induction items with
  | nil => intro x _ hx; simp at hx
  | cons a t ih =>
    intro x hnd hx
    obtain ⟨ha, ht⟩ := List.nodup_cons.mp hnd
    rcases List.mem_cons.mp hx with rfl | hx'
    · simp only [List.map_cons, List.sum_cons, sum_indicator_of_not_mem t x ha]
      simp
    · have hne : ¬(x == a) = true := by
        simp only [beq_iff_eq]
        rintro rfl
        exact ha hx'
      simp only [List.map_cons, List.sum_cons, if_neg hne, ih x ht hx']

/-- Counting every item of a duplicate-free catalog over a list drawn from
    the catalog accounts for every element exactly once. -/
theorem sum_count_eq_length :
    ∀ (big : List String) (items : List String), items.Nodup →
      (∀ x ∈ big, x ∈ items) →
      (items.map (fun i => big.count i)).sum = big.length := by
  intro big
  induction big with
  | nil => intro items _ _; simp
  | cons x rest ih =>
    intro items hnd hsub
    have hx : x ∈ items := hsub x (List.mem_cons_self x rest)
    have hrest : ∀ y ∈ rest, y ∈ items :=
      fun y hy => hsub y (List.mem_cons_of_mem x hy)
    have hcg : (items.map (fun i => (x :: rest).count i)) =
        items.map (fun i => rest.count i + (if x == i then 1 else 0)) := by
      apply List.map_congr_left
      intro i _
      rw [List.count_cons]
    rw [hcg, sum_map_add, ih items hnd hrest, sum_indicator_of_mem items x hnd hx]
    simp

/-! ### Facts about `sample` and `choice` -/

theorem nodup_get_not_mem_eraseIdx :
    ∀ (l : List String) (i : Nat) (h : i < l.length), l.Nodup →
      l.get ⟨i, h⟩ ∉ l.eraseIdx i := by
  intro l
  induction l with
  | nil => intro i h _; simp at h
  | cons a t ih =>
    intro i h hnd
    obtain ⟨ha, ht⟩ := List.nodup_cons.mp hnd
    cases i with
    | zero => simpa using ha
    | succ j =>
      have hj : j < t.length := by
        simpa using h
      intro hmem
      simp only [List.eraseIdx_cons_succ, List.get_cons_succ] at hmem
      rcases List.mem_cons.mp hmem with heq | hmem'
      · exact ha (heq ▸ t.get_mem j hj)
      · exact ih j hj ht hmem'

theorem sampleAux_some :
    ∀ (k : Nat) (pool : List String) (rng : RNG) (s : List String) (rng' : RNG),
      sampleAux k pool rng = some (s, rng') →
      s.length = k ∧ (∀ x ∈ s, x ∈ pool) ∧ (pool.Nodup → s.Nodup) := by
  intro k
  induction k with
  | zero =>
    intro pool rng s rng' h
    simp only [sampleAux, Option.some.injEq, Prod.mk.injEq] at h
    obtain ⟨rfl, rfl⟩ := h
    simp
  | succ k ih =>
    intro pool rng s rng' h
    by_cases hpos : 0 < pool.length
    · simp only [sampleAux, dif_pos hpos] at h
      have hidx : (randIdx rng pool.length).1 < pool.length := Nat.mod_lt _ hpos
      cases hrec : sampleAux k (pool.eraseIdx (randIdx rng pool.length).1)
          (randIdx rng pool.length).2 with
      | none =>
        rw [hrec] at h
        simp at h
      | some pr =>
        obtain ⟨rest, rng2⟩ := pr
        rw [hrec] at h
        simp only [Option.some.injEq, Prod.mk.injEq] at h
        obtain ⟨rfl, rfl⟩ := h
        obtain ⟨hlen, hsub, hnd⟩ := ih _ _ _ _ hrec
        refine ⟨by simp [hlen], ?_, ?_⟩
        · intro y hy
          rcases List.mem_cons.mp hy with rfl | hy'
          · exact pool.get_mem _ _
          · exact (List.eraseIdx_sublist pool _).subset (hsub y hy')
        · intro hpool
          refine List.nodup_cons.mpr
            ⟨?_, hnd (((List.eraseIdx_sublist pool _)).nodup hpool)⟩
          intro hmem
          exact nodup_get_not_mem_eraseIdx pool _ hidx hpool (hsub _ hmem)
    · rw [sampleAux, dif_neg hpos] at h
      simp at h

theorem sampleAux_isSome :
    ∀ (k : Nat) (pool : List String) (rng : RNG), k ≤ pool.length →
      ∃ s rng', sampleAux k pool rng = some (s, rng') := by
  intro k
  induction k with
  | zero => intro pool rng _; exact ⟨[], rng, rfl⟩
  | succ k ih =>
    intro pool rng hk
    have hpos : 0 < pool.length := Nat.lt_of_lt_of_le (Nat.succ_pos k) hk
    have hidx : (randIdx rng pool.length).1 < pool.length := Nat.mod_lt _ hpos
    have hlen : k ≤ (pool.eraseIdx (randIdx rng pool.length).1).length := by
      rw [List.length_eraseIdx_of_lt hidx]
      omega
    obtain ⟨s, rng', hrec⟩ :=
      ih (pool.eraseIdx (randIdx rng pool.length).1) (randIdx rng pool.length).2 hlen
    refine ⟨pool.get ⟨(randIdx rng pool.length).1, hidx⟩ :: s, rng', ?_⟩
    simp only [sampleAux, dif_pos hpos]
    rw [hrec]

theorem sampleAux_none :
    ∀ (k : Nat) (pool : List String) (rng : RNG), pool.length < k →
      sampleAux k pool rng = none := by
  intro k
  induction k with
  | zero => intro pool rng h; omega
  | succ k ih =>
    intro pool rng hk
    by_cases hpos : 0 < pool.length
    · have hidx : (randIdx rng pool.length).1 < pool.length := Nat.mod_lt _ hpos
      have hlen : (pool.eraseIdx (randIdx rng pool.length).1).length < k := by
        rw [List.length_eraseIdx_of_lt hidx]
        omega
      simp only [sampleAux, dif_pos hpos]
      rw [ih _ _ hlen]
    · rw [sampleAux, dif_neg hpos]

theorem sample_some {pool : List String} {k : Nat} {rng : RNG}
    {s : List String} {rng' : RNG} (h : sample pool k rng = some (s, rng')) :
    s.length = k ∧ (∀ x ∈ s, x ∈ pool) ∧ (pool.Nodup → s.Nodup) :=
  sampleAux_some k pool rng s rng' h

theorem sample_isSome {pool : List String} {k : Nat} (rng : RNG)
    (h : k ≤ pool.length) : ∃ s rng', sample pool k rng = some (s, rng') :=
  sampleAux_isSome k pool rng h

theorem sample_none {pool : List String} {k : Nat} (rng : RNG)
    (h : pool.length < k) : sample pool k rng = none :=
  sampleAux_none k pool rng h

theorem choice_some {l : List String} {rng : RNG} {x : String} {rng' : RNG}
    (h : choice l rng = some (x, rng')) : x ∈ l := by
  by_cases hpos : 0 < l.length
  · rw [choice, dif_pos hpos] at h
    simp only [Option.some.injEq, Prod.mk.injEq] at h
    obtain ⟨rfl, rfl⟩ := h
    exact l.get_mem _ _
  · rw [choice, dif_neg hpos] at h
    simp at h

theorem choice_isSome {l : List String} (rng : RNG) (h : 0 < l.length) :
    ∃ x rng', choice l rng = some (x, rng') ∧ x ∈ l := by
  refine ⟨l.get ⟨(randIdx rng l.length).1, Nat.mod_lt _ h⟩,
    (randIdx rng l.length).2, ?_, l.get_mem _ _⟩
  rw [choice, dif_pos h]

theorem choice_none (l : List String) (rng : RNG) (h : l.length = 0) :
    choice l rng = none := by
  rw [choice, dif_neg (by omega)]

/-! ### Facts about the trial generator -/

theorem genTrial_some {items : List String} {K resp : Nat} {rng : RNG}
    {t : Trial} {rng' : RNG} (h : genTrial items K resp rng = some (t, rng')) :
    TrialOK items K t := by
  cases hs : sample items K rng with
  | none => rw [genTrial, hs] at h; simp at h
  | some pr1 =>
    obtain ⟨cset, rng1⟩ := pr1
    rw [genTrial, hs] at h
    simp only [] at h
    cases hc1 : choice cset rng1 with
    | none => rw [hc1] at h; simp at h
    | some pr2 =>
      obtain ⟨most, rng2⟩ := pr2
      rw [hc1] at h
      simp only [] at h
      cases hc2 : choice (cset.filter (fun i => i != most)) rng2 with
      | none => rw [hc2] at h; simp at h
      | some pr3 =>
        obtain ⟨least, rng3⟩ := pr3
        rw [hc2] at h
        simp only [Option.some.injEq, Prod.mk.injEq] at h
        obtain ⟨rfl, rfl⟩ := h
        obtain ⟨hlen, hsub, hnd⟩ := sample_some hs
        have hmost : most ∈ cset := choice_some hc1
        have hleast' : least ∈ cset.filter (fun i => i != most) := choice_some hc2
        obtain ⟨hleast, hne⟩ := List.mem_filter.mp hleast'
        exact ⟨hlen, hsub, hnd, hmost, hleast,
          fun he => (by simpa using hne : least ≠ most) he.symm⟩

theorem genTrial_isSome {items : List String} {K : Nat} (resp : Nat) (rng : RNG)
    (h2 : 2 ≤ K) (hK : K ≤ items.length) (hnd : items.Nodup) :
    ∃ t rng', genTrial items K resp rng = some (t, rng') := by
  obtain ⟨cset, rng1, hs⟩ := sample_isSome rng hK
  obtain ⟨hlen, _, hcnd⟩ := sample_some hs
  have hpos : 0 < cset.length := by omega
  obtain ⟨most, rng2, hc1, hmost⟩ := choice_isSome rng1 hpos
  have hfpos : 0 < (cset.filter (fun i => i != most)).length := by
    rcases cset with _ | ⟨c1, cset'⟩
    · simp at hlen; omega
    rcases cset' with _ | ⟨c2, rest⟩
    · simp at hlen; omega
    have hne12 : c1 ≠ c2 := by
      have := hcnd hnd
      rcases List.nodup_cons.mp this with ⟨h1, _⟩
      intro he
      exact h1 (he ▸ List.mem_cons_self c2 rest)
    by_cases he1 : c1 = most
    · have he2 : c2 ≠ most := fun h => hne12 (he1.trans h.symm)
      have : c2 ∈ (c1 :: c2 :: rest).filter (fun i => i != most) :=
        List.mem_filter.mpr ⟨List.mem_cons_of_mem c1 (List.mem_cons_self c2 rest),
          by simpa using he2⟩
      exact List.length_pos.mpr (List.ne_nil_of_mem this)
    · have : c1 ∈ (c1 :: c2 :: rest).filter (fun i => i != most) :=
        List.mem_filter.mpr ⟨List.mem_cons_self c1 (c2 :: rest), by simpa using he1⟩
      exact List.length_pos.mpr (List.ne_nil_of_mem this)
  obtain ⟨least, rng3, hc2, _⟩ := choice_isSome rng2 hfpos
  refine ⟨⟨resp, cset, most, least⟩, rng3, ?_⟩
  rw [genTrial, hs]
  simp only []
  rw [hc1]
  simp only []
  rw [hc2]

theorem genTrial_none {items : List String} {K : Nat} (resp : Nat) (rng : RNG)
    (h : items.length < K ∨ K < 2) :
    genTrial items K resp rng = none := by
  rcases h with hlt | hsmall
  · rw [genTrial, sample_none rng hlt]
  · by_cases hlt' : items.length < K
    · rw [genTrial, sample_none rng hlt']
    · interval_cases K
      · have hs : sample items 0 rng = some ([], rng) := rfl
        rw [genTrial, hs]
        simp only []
        rw [choice_none [] rng rfl]
      · cases hs : sample items 1 rng with
        | none => rw [genTrial, hs]
        | some pr =>
          obtain ⟨cset, rng1⟩ := pr
          obtain ⟨hlen, _, _⟩ := sample_some hs
          rcases cset with _ | ⟨x, rest⟩
          · simp at hlen
          rcases rest with _ | ⟨y, rest'⟩
          swap
          · simp at hlen
          cases hc1 : choice [x] rng1 with
          | none =>
            rw [genTrial, hs]
            simp only []
            rw [hc1]
          | some pr2 =>
            obtain ⟨most, rng2⟩ := pr2
            have hmx : most = x := by
              have := choice_some hc1
              simpa using this
            subst hmx
            rw [genTrial, hs]
            simp only []
            rw [hc1]
            simp only []
            have hfe : ([most].filter (fun i => i != most)) = [] := by
              simp
            rw [hfe, choice_none [] rng2 rfl]

theorem genSets_some {items : List String} {K resp : Nat} {P : Trial → Prop}
    (hP : ∀ (rng rng' : RNG) (t : Trial),
      genTrial items K resp rng = some (t, rng') → P t) :
    ∀ {S : Nat} {rng : RNG} {ts : List Trial} {rng' : RNG},
      genSets items K resp S rng = some (ts, rng') →
      ts.length = S ∧ ∀ t ∈ ts, P t := by
  intro S
  induction S with
  | zero =>
    intro rng ts rng' h
    simp only [genSets, Option.some.injEq, Prod.mk.injEq] at h
    obtain ⟨rfl, rfl⟩ := h
    simp
  | succ s ih =>
    intro rng ts rng' h
    rw [genSets] at h
    cases hg : genTrial items K resp rng with
    | none => rw [hg] at h; simp at h
    | some pr =>
      obtain ⟨t, rng1⟩ := pr
      rw [hg] at h
      simp only [] at h
      cases hrec : genSets items K resp s rng1 with
      | none => rw [hrec] at h; simp at h
      | some pr2 =>
        obtain ⟨ts1, rng2⟩ := pr2
        rw [hrec] at h
        simp only [Option.some.injEq, Prod.mk.injEq] at h
        obtain ⟨rfl, rfl⟩ := h
        obtain ⟨hlen, hall⟩ := ih hrec
        refine ⟨by simp [hlen], ?_⟩
        intro u hu
        rcases List.mem_cons.mp hu with rfl | hu'
        · exact hP _ _ _ hg
        · exact hall u hu'

theorem genSets_isSome {items : List String} {K resp : Nat}
    (hE : ∀ rng : RNG, ∃ t rng', genTrial items K resp rng = some (t, rng')) :
    ∀ (S : Nat) (rng : RNG),
      ∃ ts rng', genSets items K resp S rng = some (ts, rng') := by
  intro S
  induction S with
  | zero => intro rng; exact ⟨[], rng, rfl⟩
  | succ s ih =>
    intro rng
    obtain ⟨t, rng1, hg⟩ := hE rng
    obtain ⟨ts, rng2, hrec⟩ := ih rng1
    refine ⟨t :: ts, rng2, ?_⟩
    rw [genSets, hg]
    simp only []
    rw [hrec]

theorem genSets_none {items : List String} {K resp : Nat}
    (hF : ∀ rng : RNG, genTrial items K resp rng = none)
    {S : Nat} (hS : 1 ≤ S) (rng : RNG) :
    genSets items K resp S rng = none := by
  cases S with
  | zero => omega
  | succ s => rw [genSets, hF rng]

theorem simAux_some {items : List String} {K S : Nat} {P : Trial → Prop}
    (hP : ∀ (resp : Nat) (rng rng' : RNG) (t : Trial),
      genTrial items K resp rng = some (t, rng') → P t) :
    ∀ {rs : List Nat} {rng : RNG} {ts : List Trial} {rng' : RNG},
      simAux items K S rs rng = some (ts, rng') →
      ts.length = rs.length * S ∧ ∀ t ∈ ts, P t := by
  intro rs
  induction rs with
  | nil =>
    intro rng ts rng' h
    simp only [simAux, Option.some.injEq, Prod.mk.injEq] at h
    obtain ⟨rfl, rfl⟩ := h
    simp
  | cons r rest ih =>
    intro rng ts rng' h
    rw [simAux] at h
    cases hg : genSets items K r S rng with
    | none => rw [hg] at h; simp at h
    | some pr =>
      obtain ⟨ts1, rng1⟩ := pr
      rw [hg] at h
      simp only [] at h
      cases hrec : simAux items K S rest rng1 with
      | none => rw [hrec] at h; simp at h
      | some pr2 =>
        obtain ⟨ts2, rng2⟩ := pr2
        rw [hrec] at h
        simp only [Option.some.injEq, Prod.mk.injEq] at h
        obtain ⟨rfl, rfl⟩ := h
        obtain ⟨hlen1, hall1⟩ := genSets_some (hP r) hg
        obtain ⟨hlen2, hall2⟩ := ih hrec
        constructor
        · rw [List.length_append, hlen1, hlen2, List.length_cons]
          ring
        · intro u hu
          rcases List.mem_append.mp hu with hu' | hu'
          · exact hall1 u hu'
          · exact hall2 u hu'

theorem simAux_isSome {items : List String} {K S : Nat}
    (hE : ∀ (resp : Nat) (rng : RNG),
      ∃ t rng', genTrial items K resp rng = some (t, rng')) :
    ∀ (rs : List Nat) (rng : RNG),
      ∃ ts rng', simAux items K S rs rng = some (ts, rng') := by
  intro rs
  induction rs with
  | nil => intro rng; exact ⟨[], rng, rfl⟩
  | cons r rest ih =>
    intro rng
    obtain ⟨ts1, rng1, hg⟩ := genSets_isSome (hE r) S rng
    obtain ⟨ts2, rng2, hrec⟩ := ih rng1
    refine ⟨ts1 ++ ts2, rng2, ?_⟩
    rw [simAux, hg]
    simp only []
    rw [hrec]

theorem simAux_none {items : List String} {K S : Nat}
    (hF : ∀ (resp : Nat) (rng : RNG), genTrial items K resp rng = none)
    (hS : 1 ≤ S) {rs : List Nat} (hrs : rs ≠ []) (rng : RNG) :
    simAux items K S rs rng = none := by
  cases rs with
  | nil => exact absurd rfl hrs
  | cons r rest => rw [simAux, genSets_none (hF r) hS rng]

/-- Inversion for a successful simulation: `R*S` trials, each well-formed. -/
theorem simulate_maxdiff_some {items : List String} {R S K : Nat} {rng : RNG}
    {trials : List Trial}
    (h : simulate_maxdiff items R S K rng = some trials) :
    trials.length = R * S ∧ ∀ t ∈ trials, TrialOK items K t := by
  rw [simulate_maxdiff] at h
  cases ha : simAux items K S (List.range R) rng with
  | none => rw [ha] at h; simp at h
  | some pr =>
    obtain ⟨ts, rng'⟩ := pr
    rw [ha] at h
    simp at h
    subst h
    have hall := simAux_some
      (fun resp rng rng' (t : Trial) hg =>
        (genTrial_some hg : TrialOK items K t)) ha
    simpa using hall

/-- The simulation succeeds whenever `2 ≤ K ≤ |items|` and the catalog is
    duplicate-free. -/
theorem simulate_maxdiff_isSome (items : List String) (R S K : Nat) (rng : RNG)
    (h2 : 2 ≤ K) (hK : K ≤ items.length) (hnd : items.Nodup) :
    ∃ trials, simulate_maxdiff items R S K rng = some trials := by
  obtain ⟨ts, rng', ha⟩ :=
    simAux_isSome (fun resp rng => genTrial_isSome resp rng h2 hK hnd)
      (List.range R) rng
  exact ⟨ts, by rw [simulate_maxdiff, ha]; rfl⟩

/-- The simulation raises as soon as one trial is attempted with an
    infeasible set size. -/
theorem simulate_maxdiff_fails (items : List String) (R S K : Nat) (rng : RNG)
    (h : items.length < K ∨ K < 2) (hR : 1 ≤ R) (hS : 1 ≤ S) :
    simulate_maxdiff items R S K rng = none := by
  have hrs : List.range R ≠ [] := by
    simp only [ne_eq, List.range_eq_nil]
    omega
  rw [simulate_maxdiff,
    simAux_none (fun resp rng => genTrial_none resp rng h) hS hrs rng]
  rfl

/-! ### Bridging facts about the scored table -/

theorem mkRow_nan_of_shown_zero {df : List Trial} {i : String}
    (h : countShown df i = 0) :
    (mkRow df i).score = none ∧ (mkRow df i).seSq = none ∧
    (mkRow df i).ciL = none ∧ (mkRow df i).ciU = none := by
  refine ⟨?_, ?_, ?_, ?_⟩ <;> simp [mkRow, h]

theorem mkRow_score_of_shown_ne_zero {df : List Trial} {i : String}
    (h : countShown df i ≠ 0) :
    (mkRow df i).score =
      some (((countMost df i : ℚ) - (countLeast df i : ℚ)) / (countShown df i : ℚ)) := by
  simp [mkRow, h]

/-- Every row of the final table is some sorted row with a rank and scaling
    attached. -/
theorem mem_scores_elim {df : List Trial} {items : List String} {r : Scored}
    (hr : r ∈ simple_count_scores df items) :
    ∃ n row, row ∈ sortRows (items.map (mkRow df)) ∧
      r = mkScored n (scoreMin df items) (scoreMax df items) row :=
  mem_attachRanks hr

/-- Every row of the final table is built from some catalog item. -/
theorem mem_scores_elim_item {df : List Trial} {items : List String} {r : Scored}
    (hr : r ∈ simple_count_scores df items) :
    ∃ n i, i ∈ items ∧
      r = mkScored n (scoreMin df items) (scoreMax df items) (mkRow df i) := by
  obtain ⟨n, row, hrow, rfl⟩ := mem_scores_elim hr
  have hrow' : row ∈ items.map (mkRow df) := (sortRows_perm _).mem_iff.mp hrow
  obtain ⟨i, hi, rfl⟩ := List.mem_map.mp hrow'
  exact ⟨n, i, hi, rfl⟩

theorem mkScored_scaled (n : Nat) (mn mx : Option ℚ) (r : ItemRow) :
    (mkScored n mn mx r).scaled = scaledVal mn mx r.score := rfl

theorem mkScored_score (n : Nat) (mn mx : Option ℚ) (r : ItemRow) :
    (mkScored n mn mx r).score = r.score := rfl

/-- Conversely, every sorted row appears in the final table with some rank. -/
theorem attachRanks_mem_of_mem {mn mx : Option ℚ} :
    ∀ (n0 : Nat) {l : List ItemRow} {row : ItemRow}, row ∈ l →
      ∃ n, mkScored n mn mx row ∈ attachRanks mn mx n0 l := by
  intro n0 l
  induction l generalizing n0 with
  | nil => intro row h; simp at h
  | cons r rs ih =>
    intro row h
    rcases List.mem_cons.mp h with rfl | h'
    · exact ⟨n0, List.mem_cons_self _ _⟩
    · obtain ⟨n, hn⟩ := ih (n0 + 1) h'
      exact ⟨n, List.mem_cons_of_mem _ hn⟩

theorem foldl_min_mem : ∀ (xs : List ℚ) (x : ℚ), xs.foldl min x ∈ x :: xs := by
  intro xs
  induction xs with
  | nil => intro x; simp
  | cons y ys ih =>
    intro x
    have h := ih (min x y)
    rcases List.mem_cons.mp h with he | hm
    · rcases min_choice x y with h1 | h1
      · rw [List.foldl_cons, he, h1]; simp
      · rw [List.foldl_cons, he, h1]; simp
    · simp only [List.foldl_cons]
      exact List.mem_cons_of_mem x (List.mem_cons_of_mem y hm)

theorem foldl_max_mem : ∀ (xs : List ℚ) (x : ℚ), xs.foldl max x ∈ x :: xs := by
  intro xs
  induction xs with
  | nil => intro x; simp
  | cons y ys ih =>
    intro x
    have h := ih (max x y)
    rcases List.mem_cons.mp h with he | hm
    · rcases max_choice x y with h1 | h1
      · rw [List.foldl_cons, he, h1]; simp
      · rw [List.foldl_cons, he, h1]; simp
    · simp only [List.foldl_cons]
      exact List.mem_cons_of_mem x (List.mem_cons_of_mem y hm)

theorem qmin?_mem {l : List ℚ} {a : ℚ} (h : qmin? l = some a) : a ∈ l := by
  cases l with
  | nil => simp [qmin?] at h
  | cons x xs =>
    simp only [qmin?, Option.some.injEq] at h
    exact h ▸ foldl_min_mem xs x

theorem qmax?_mem {l : List ℚ} {b : ℚ} (h : qmax? l = some b) : b ∈ l := by
  cases l with
  | nil => simp [qmax?] at h
  | cons x xs =>
    simp only [qmax?, Option.some.injEq] at h
    exact h ▸ foldl_max_mem xs x

/-- In a duplicate-free list, earlier elements have smaller indices. -/
theorem nodup_pairwise_indexOf :
    ∀ (l : List String), l.Nodup →
      l.Pairwise (fun x y => l.indexOf x < l.indexOf y) := by
  intro l
  induction l with
  | nil => intro _; simp
  | cons a t ih =>
    intro hnd
    obtain ⟨ha, ht⟩ := List.nodup_cons.mp hnd
    refine List.pairwise_cons.mpr ⟨?_, ?_⟩
    · intro y hy
      have hya : a ≠ y := fun h => ha (h ▸ hy)
      rw [List.indexOf_cons_self, List.indexOf_cons_ne _ hya]
      exact Nat.succ_pos _
    · refine List.Pairwise.imp_of_mem ?_ (ih ht)
      intro x y hx hy hr
      have hxa : a ≠ x := fun h => ha (h ▸ hx)
      have hya : a ≠ y := fun h => ha (h ▸ hy)
      rw [List.indexOf_cons_ne _ hxa, List.indexOf_cons_ne _ hya]
      omega

theorem sum_map_const {α : Type} (l : List α) (f : α → Nat) (K : Nat)
    (h : ∀ x ∈ l, f x = K) : (l.map f).sum = l.length * K := by
  induction l with
  | nil => simp
  | cons a t ih =>
    have ha := h a (List.mem_cons_self a t)
    have iht := ih (fun x hx => h x (List.mem_cons_of_mem a hx))
    simp only [List.map_cons, List.sum_cons, List.length_cons, ha, iht]
    ring

/-- Evaluation of the scorer on the empty trial table over a one-item
    catalog: the single row is never shown, all NaN, scaled 50. -/
theorem scores_dfEmpty_eval :
    simple_count_scores dfEmpty itemsOne
      = [⟨1, "X", 0, 0, 0, none, none, none, none, some 50⟩] := by
  norm_num [simple_count_scores, scoreMin, scoreMax, sortRows, insertDesc,
    attachRanks, mkScored, mkRow, countShown, countMost, countLeast,
    qmin?, qmax?, scaledVal, dfEmpty, itemsOne]

/-- Evaluation of the scorer on the one-trial table: "A" scores 1, "B"
    scores -1, never-shown "C" is NaN and, the score range being positive,
    its `Scaled_0_100` is NaN as well. -/
theorem scores_dfEx_eval :
    simple_count_scores dfEx itemsEx =
      [⟨1, "A", 1, 0, 1, some 1, some 0, some (1, 0), some (1, 0), some 100⟩,
       ⟨2, "B", 0, 1, 1, some (-1), some 0, some (-1, 0), some (-1, 0), some 0⟩,
       ⟨3, "C", 0, 0, 0, none, none, none, none, none⟩] := by
  norm_num +decide [simple_count_scores, scoreMin, scoreMax, sortRows,
    insertDesc, attachRanks, mkScored, mkRow, countShown, countMost,
    countLeast, qmin?, qmax?, scaledVal, gtB, dfEx, itemsEx, List.count_cons,
    List.countP_cons, List.filterMap_cons, List.foldl_cons]

/-! ### The claims -/

/-- C2: for every trial collection and catalog, the aggregator returns
    exactly one row per catalog item (the multiset of `Item` values is
    exactly the catalog), including items appearing in no trial; a row with
    `Shown = 0` carries NaN (`none`) in `Score`, `SE`, `CI_L`, `CI_U`, and
    the aggregator is a total function (it never raises). -/
theorem one_row_per_item_nan_edge (df : List Trial) (items : List String) :
    ((simple_count_scores df items).map Scored.item).Perm items ∧
    ∀ r ∈ simple_count_scores df items, r.shown = 0 →
      r.score = none ∧ r.seSq = none ∧ r.ciL = none ∧ r.ciU = none := by
  constructor
  · have h1 : (simple_count_scores df items).map Scored.item
        = (sortRows (items.map (mkRow df))).map ItemRow.item :=
      attachRanks_map_field (fun n r => rfl) 1 _
    rw [h1]
    have h2 := (sortRows_perm (items.map (mkRow df))).map ItemRow.item
    have h3 : (items.map (mkRow df)).map ItemRow.item = items := by
      rw [List.map_map]
      exact List.map_id'' (fun i => rfl) items
    rw [h3] at h2
    exact h2
  · intro r hr h0
    obtain ⟨n, i, hi, rfl⟩ := mem_scores_elim_item hr
    have h0' : countShown df i = 0 := h0
    obtain ⟨ha, hb, hc, hd⟩ := mkRow_nan_of_shown_zero h0'
    exact ⟨ha, hb, hc, hd⟩

/-- C2 witness: on the empty trial table over a one-item catalog, the single
    row has `Shown = 0` and NaN score, SE and CI fields. -/
theorem one_row_per_item_nan_edge_witness :
    (⟨1, "X", 0, 0, 0, none, none, none, none, some 50⟩ : Scored) ∈
      simple_count_scores dfEmpty itemsOne ∧
    ((⟨1, "X", 0, 0, 0, none, none, none, none, some 50⟩ : Scored).score = none ∧
     (⟨1, "X", 0, 0, 0, none, none, none, none, some 50⟩ : Scored).seSq = none ∧
     (⟨1, "X", 0, 0, 0, none, none, none, none, some 50⟩ : Scored).ciL = none ∧
     (⟨1, "X", 0, 0, 0, none, none, none, none, some 50⟩ : Scored).ciU = none) :=
  have hmem : (⟨1, "X", 0, 0, 0, none, none, none, none, some 50⟩ : Scored) ∈
      simple_count_scores dfEmpty itemsOne := by
    rw [scores_dfEmpty_eval]
    exact List.mem_cons_self _ _
  ⟨hmem, (one_row_per_item_nan_edge dfEmpty itemsOne).2 _ hmem rfl⟩

/-- C3: on every successful run, the `Shown` column of the aggregator output
    sums to `R * S * K`. -/
theorem sum_shown_eq_total (items : List String) (R S K : Nat) (rng : RNG)
    (trials : List Trial) (hnd : items.Nodup)
    (hsim : simulate_maxdiff items R S K rng = some trials) :
    ((simple_count_scores trials items).map Scored.shown).sum = R * S * K := by
  obtain ⟨hlen, hok⟩ := simulate_maxdiff_some hsim
  have h1 : (simple_count_scores trials items).map Scored.shown
      = (sortRows (items.map (mkRow trials))).map ItemRow.shown :=
    attachRanks_map_field (fun n r => rfl) 1 _
  have h2 := (sortRows_perm (items.map (mkRow trials))).map ItemRow.shown
  have h3 : (items.map (mkRow trials)).map ItemRow.shown
      = items.map (fun i => ((trials.map Trial.set).flatten).count i) := by
    rw [List.map_map]
    rfl
  have hsub : ∀ x ∈ (trials.map Trial.set).flatten, x ∈ items := by
    intro x hx
    rcases List.mem_flatten.mp hx with ⟨l, hl, hxl⟩
    rcases List.mem_map.mp hl with ⟨t, ht, rfl⟩
    exact (hok t ht).2.1 x hxl
  have h4 := sum_count_eq_length ((trials.map Trial.set).flatten) items hnd hsub
  have h5 : ((trials.map Trial.set).flatten).length = trials.length * K := by
    rw [List.length_flatten, List.map_map]
    exact sum_map_const trials _ K (fun t ht => (hok t ht).1)
  rw [h1, h2.sum_eq, h3, h4, h5, hlen]

/-- C3 witness: a concrete run with one respondent, one set, two items per
    set over a three-item catalog shows `Σ Shown = 1 * 1 * 2`. -/
theorem sum_shown_eq_total_witness :
    ((simple_count_scores [⟨0, ["a", "b"], "a", "b"⟩] ["a", "b", "c"]).map
      Scored.shown).sum = 1 * 1 * 2 :=
  sum_shown_eq_total ["a", "b", "c"] 1 1 2 rngZero [⟨0, ["a", "b"], "a", "b"⟩]
    (by decide) (by decide)

/-- C4: in the aggregator output over trials whose most and least picks are
    distinct members of the trial's choice set, every row satisfies
    `Most + Least ≤ Shown`. -/
theorem most_add_least_le_shown_in_table (df : List Trial) (items : List String)
    (hwf : ∀ t ∈ df, t.most ∈ t.set ∧ t.least ∈ t.set ∧ t.most ≠ t.least) :
    ∀ r ∈ simple_count_scores df items, 0 < r.shown →
      r.most + r.least ≤ r.shown := by
  intro r hr _
  obtain ⟨n, i, hi, rfl⟩ := mem_scores_elim_item hr
  exact countMost_add_countLeast_le_countShown hwf i

/-- C4 witness at the concrete one-trial table. -/
theorem most_add_least_le_shown_in_table_witness :
    (⟨1, "A", 1, 0, 1, some 1, some 0, some (1, 0), some (1, 0), some 100⟩ :
      Scored).most +
    (⟨1, "A", 1, 0, 1, some 1, some 0, some (1, 0), some (1, 0), some 100⟩ :
      Scored).least ≤
    (⟨1, "A", 1, 0, 1, some 1, some 0, some (1, 0), some (1, 0), some 100⟩ :
      Scored).shown :=
  have hmem :
      (⟨1, "A", 1, 0, 1, some 1, some 0, some (1, 0), some (1, 0), some 100⟩ :
        Scored) ∈ simple_count_scores dfEx itemsEx := by
    rw [scores_dfEx_eval]
    exact List.mem_cons_self _ _
  most_add_least_le_shown_in_table dfEx itemsEx (by decide) _ hmem
    (by decide)

/-- C5: in the aggregator output over trials whose picks come from the shown
    set, every row with `Shown > 0` has its score in `[-1, 1]`. -/
theorem score_within_unit_interval (df : List Trial) (items : List String)
    (hwf : ∀ t ∈ df, t.most ∈ t.set ∧ t.least ∈ t.set) :
    ∀ r ∈ simple_count_scores df items, 0 < r.shown →
      ∀ q : ℚ, r.score = some q → -1 ≤ q ∧ q ≤ 1 := by
  intro r hr hpos q hq
  obtain ⟨n, i, hi, rfl⟩ := mem_scores_elim_item hr
  have hpos' : 0 < countShown df i := hpos
  have hm : countMost df i ≤ countShown df i :=
    countMost_le_countShown (fun t ht => (hwf t ht).1) i
  have hl : countLeast df i ≤ countShown df i :=
    countLeast_le_countShown (fun t ht => (hwf t ht).2) i
  have hq' : (mkRow df i).score = some q := hq
  rw [mkRow_score_of_shown_ne_zero (by omega)] at hq'
  have hqe : q = ((countMost df i : ℚ) - countLeast df i) / countShown df i := by
    simpa using hq'.symm
  have hsQ : (0 : ℚ) < countShown df i := by exact_mod_cast hpos'
  have hmQ : (countMost df i : ℚ) ≤ countShown df i := by exact_mod_cast hm
  have hlQ : (countLeast df i : ℚ) ≤ countShown df i := by exact_mod_cast hl
  have hm0 : (0 : ℚ) ≤ countMost df i := Nat.cast_nonneg _
  have hl0 : (0 : ℚ) ≤ countLeast df i := Nat.cast_nonneg _
  constructor
  · rw [hqe, le_div_iff₀ hsQ]
    linarith
  · rw [hqe, div_le_one hsQ]
    linarith

/-- C5 witness at the concrete one-trial table: the top row scores 1. -/
theorem score_within_unit_interval_witness :
    -1 ≤ (1 : ℚ) ∧ (1 : ℚ) ≤ 1 :=
  have hmem :
      (⟨1, "A", 1, 0, 1, some 1, some 0, some (1, 0), some (1, 0), some 100⟩ :
        Scored) ∈ simple_count_scores dfEx itemsEx := by
    rw [scores_dfEx_eval]
    exact List.mem_cons_self _ _
  score_within_unit_interval dfEx itemsEx (by decide) _ hmem (by decide)
    1 rfl

/-- C7: for `2 ≤ K ≤ |catalog|` over a duplicate-free catalog, the generator
    succeeds with exactly `R*S` trials, each showing `K` distinct catalog
    items, with most and least in the shown set and distinct. -/
theorem generator_contract (items : List String) (R S K : Nat) (rng : RNG)
    (h2 : 2 ≤ K) (hK : K ≤ items.length) (hnd : items.Nodup) :
    ∃ trials, simulate_maxdiff items R S K rng = some trials ∧
      trials.length = R * S ∧
      ∀ t ∈ trials, t.set.length = K ∧ t.set.Nodup ∧
        (∀ x ∈ t.set, x ∈ items) ∧ t.most ∈ t.set ∧ t.least ∈ t.set ∧
        t.most ≠ t.least := by
  obtain ⟨trials, hsim⟩ := simulate_maxdiff_isSome items R S K rng h2 hK hnd
  obtain ⟨hlen, hok⟩ := simulate_maxdiff_some hsim
  refine ⟨trials, hsim, hlen, ?_⟩
  intro t ht
  obtain ⟨ha, hb, hc, hd, he, hf⟩ := hok t ht
  exact ⟨ha, hc hnd, hb, hd, he, hf⟩

/-- C7 witness: a concrete feasible run. -/
theorem generator_contract_witness :
    ∃ trials, simulate_maxdiff ["a", "b", "c"] 1 1 2 rngZero = some trials ∧
      trials.length = 1 * 1 ∧
      ∀ t ∈ trials, t.set.length = 2 ∧ t.set.Nodup ∧
        (∀ x ∈ t.set, x ∈ ["a", "b", "c"]) ∧ t.most ∈ t.set ∧
        t.least ∈ t.set ∧ t.most ≠ t.least :=
  generator_contract ["a", "b", "c"] 1 1 2 rngZero (by decide) (by decide)
    (by decide)

/-- C8 (amended): with an infeasible set size (`K > |catalog|` or `K < 2`)
    the generator raises as soon as the first trial is attempted, i.e.
    whenever `R ≥ 1` and `S ≥ 1`; there is no upfront precondition check, so
    with zero requested trials it succeeds instead. -/
theorem generator_error_amended (items : List String) (R S K : Nat) (rng : RNG)
    (h : items.length < K ∨ K < 2) (hR : 1 ≤ R) (hS : 1 ≤ S) :
    simulate_maxdiff items R S K rng = none :=
  simulate_maxdiff_fails items R S K rng h hR hS

/-- C8 counterexample: with `K = 10` exceeding the six-item catalog but zero
    respondents, the generator does not fail — it returns an empty trial
    table, so there is no fail-fast precondition check. -/
theorem no_failfast_counterexample :
    simulate_maxdiff ["a", "b", "c", "d", "e", "f"] 0 5 10 rngZero
      = some [] := by
  decide

/-- C8 witness: a concrete infeasible run (one respondent, `K = 5` over a
    two-item catalog) raises. -/
theorem generator_error_amended_witness :
    simulate_maxdiff ["a", "b"] 1 1 5 rngZero = none :=
  generator_error_amended ["a", "b"] 1 1 5 rngZero (Or.inl (by decide))
    (by decide) (by decide)

/-- C9: the pipeline output is a function of the PRNG algorithm (`stream`)
    and the parameters only.  `main` reseeds with the constant seed 42, so
    whatever RNG state the process had before (`rng1` vs `rng2`), two runs
    with the same parameters produce identical score tables; CSV text and
    the plots are deterministic functions of this table. -/
theorem pipeline_deterministic (stream : Nat → Nat → Nat) (R S K : Nat)
    (rng1 rng2 : RNG) :
    mainTable stream rng1 R S K = mainTable stream rng2 R S K := rfl

/-- C10: rows whose score is NaN (never-shown items) come after every row
    with a defined score, hence receive the largest ranks. -/
theorem undefined_scores_rank_last (df : List Trial) (items : List String) :
    (simple_count_scores df items).Pairwise
      (fun a b => a.score = none → b.score = none) := by
  have hs := sortRows_sorted (items.map (mkRow df))
  refine attachRanks_pairwise ?_ hs
  intro n m r r' hrel h0
  have h0' : r.score = none := h0
  rw [h0'] at hrel
  cases hsc : r'.score with
  | none => exact hsc
  | some x => rw [hsc] at hrel; simp [gtB] at hrel

/-- C10 witness: in the concrete one-trial table the NaN row is last. -/
theorem undefined_scores_rank_last_witness :
    (simple_count_scores dfEx itemsEx).Pairwise
      (fun a b => a.score = none → b.score = none) :=
  undefined_scores_rank_last dfEx itemsEx

/-- C1: the output table's `Rank` column is exactly `1, 2, …, N`
    (`N` = catalog size); rows are sorted descending by score (NaN last,
    `gtB` being the strict descending test, so no later row has a strictly
    greater score than an earlier one); tied scores keep the original
    catalog order (the sort is stable); and the rank-1 row has the maximum
    score. -/
theorem rank_sort_stable (df : List Trial) (items : List String)
    (hnd : items.Nodup) :
    ((simple_count_scores df items).map Scored.rank
        = List.range' 1 items.length) ∧
    (simple_count_scores df items).Pairwise
      (fun a b => gtB b.score a.score = false) ∧
    (simple_count_scores df items).Pairwise
      (fun a b => a.score = b.score →
        items.indexOf a.item < items.indexOf b.item) ∧
    (∀ a ∈ simple_count_scores df items,
      ∀ b ∈ simple_count_scores df items,
        a.rank = 1 → gtB b.score a.score = false) := by
  have hlen : (sortRows (items.map (mkRow df))).length = items.length := by
    rw [(sortRows_perm _).length_eq, List.length_map]
  have h1 : (simple_count_scores df items).map Scored.rank
      = List.range' 1 items.length := by
    have h := attachRanks_map_rank (scoreMin df items) (scoreMax df items) 1
      (sortRows (items.map (mkRow df)))
    rw [hlen] at h
    exact h
  have h2 : (simple_count_scores df items).Pairwise
      (fun a b => gtB b.score a.score = false) := by
    refine attachRanks_pairwise ?_ (sortRows_sorted (items.map (mkRow df)))
    intro n m r r' hrel
    exact hrel
  have hQ : (items.map (mkRow df)).Pairwise
      (fun a b => items.indexOf a.item < items.indexOf b.item) := by
    refine List.pairwise_map.mpr ?_
    exact nodup_pairwise_indexOf items hnd
  have h3 : (simple_count_scores df items).Pairwise
      (fun a b => a.score = b.score →
        items.indexOf a.item < items.indexOf b.item) := by
    refine attachRanks_pairwise ?_ (sortRows_stable hQ)
    intro n m r r' hrel
    exact hrel
  refine ⟨h1, h2, h3, ?_⟩
  intro a ha b hb hrank
  cases hout : simple_count_scores df items with
  | nil => rw [hout] at ha; simp at ha
  | cons h0 tail =>
    rw [hout] at ha hb h1 h2
    have hlen2 : items.length = tail.length + 1 := by
      have hc := congrArg List.length h1
      simpa using hc.symm
    rw [hlen2, List.range'_succ] at h1
    simp only [List.map_cons] at h1
    injection h1 with hr1 hr2
    rcases List.mem_cons.mp ha with rfl | ha'
    · rcases List.mem_cons.mp hb with rfl | hb'
      · exact gtB_irrefl _
      · exact (List.pairwise_cons.mp h2).1 b hb'
    · exfalso
      have hmem : a.rank ∈ List.range' 2 tail.length := by
        rw [← hr2]
        exact List.mem_map.mpr ⟨a, ha', rfl⟩
      rw [List.mem_range'] at hmem
      obtain ⟨i, _, hi⟩ := hmem
      omega

/-- C1 witness: at the concrete one-trial table the ranks are `[1, 2, 3]`. -/
theorem rank_sort_stable_witness :
    (simple_count_scores dfEx itemsEx).map Scored.rank
      = List.range' 1 itemsEx.length :=
  (rank_sort_stable dfEx itemsEx (by decide)).1

/-- C6 counterexample: in the concrete one-trial table the never-shown item
    "C" has a NaN `Scaled_0_100` (the score range being positive, NaN
    propagates through the min-max formula), so not every `Scaled_0_100`
    value lies in `[0, 100]`. -/
theorem scaled_nan_counterexample :
    (⟨3, "C", 0, 0, 0, none, none, none, none, none⟩ : Scored) ∈
      simple_count_scores dfEx itemsEx ∧
    (⟨3, "C", 0, 0, 0, none, none, none, none, none⟩ : Scored).scaled
      = none := by
  constructor
  · rw [scores_dfEx_eval]
    exact List.mem_cons_of_mem _
      (List.mem_cons_of_mem _ (List.mem_cons_self _ _))
  · rfl

/-- C6 (amended): every row with a defined score has `Scaled_0_100` in
    `[0, 100]`; when the score range is positive, `Scaled_0_100` is the
    min-max formula applied to the score (so NaN for never-shown rows); and
    when all scores are equal every row — shown or not — gets exactly 50. -/
theorem scaled_range_amended (df : List Trial) (items : List String) :
    (∀ r ∈ simple_count_scores df items, ∀ q : ℚ, r.score = some q →
      ∃ v, r.scaled = some v ∧ 0 ≤ v ∧ v ≤ 100) ∧
    (∀ a b : ℚ, scoreMin df items = some a → scoreMax df items = some b →
      0 < b - a → ∀ r ∈ simple_count_scores df items,
        r.scaled = r.score.map (fun s => (s - a) / (b - a) * 100)) ∧
    ((∀ r ∈ simple_count_scores df items,
        ∀ r' ∈ simple_count_scores df items, r.score = r'.score) →
      ∀ r ∈ simple_count_scores df items, r.scaled = some 50) := by
  refine ⟨?_, ?_, ?_⟩
  · intro r hr q hq
    obtain ⟨n, row, hrow, rfl⟩ := mem_scores_elim hr
    have hq' : row.score = some q := hq
    have hqL : q ∈ (sortRows (items.map (mkRow df))).filterMap ItemRow.score :=
      List.mem_filterMap.mpr ⟨row, hrow, hq'⟩
    rw [mkScored_scaled]
    cases hmn : scoreMin df items with
    | none =>
      refine ⟨50, ?_, by norm_num, by norm_num⟩
      cases scoreMax df items <;> rfl
    | some a =>
      cases hmx : scoreMax df items with
      | none => exact ⟨50, rfl, by norm_num, by norm_num⟩
      | some b =>
        by_cases hspan : 0 < b - a
        · have hal : a ≤ q := qmin?_le hmn q hqL
          have hbu : q ≤ b := qmax?_ge hmx q hqL
          refine ⟨(q - a) / (b - a) * 100, ?_, ?_, ?_⟩
          · rw [hq']
            simp [scaledVal, hspan]
          · have h0 : 0 ≤ (q - a) / (b - a) :=
              div_nonneg (by linarith) (by linarith)
            have h100 : (0 : ℚ) ≤ 100 := by norm_num
            exact mul_nonneg h0 h100
          · have hle1 : (q - a) / (b - a) ≤ 1 := by
              rw [div_le_one hspan]
              linarith
            calc (q - a) / (b - a) * 100 ≤ 1 * 100 :=
                mul_le_mul_of_nonneg_right hle1 (by norm_num)
              _ = 100 := by norm_num
        · refine ⟨50, ?_, by norm_num, by norm_num⟩
          simp [scaledVal, hspan]
  · intro a b hmn hmx hspan r hr
    obtain ⟨n, row, hrow, rfl⟩ := mem_scores_elim hr
    rw [mkScored_scaled, mkScored_score, hmn, hmx]
    simp [scaledVal, hspan]
  · intro hall r hr
    obtain ⟨n, row, hrow, rfl⟩ := mem_scores_elim hr
    rw [mkScored_scaled]
    cases hmn : scoreMin df items with
    | none => cases scoreMax df items <;> rfl
    | some a =>
      cases hmx : scoreMax df items with
      | none => rfl
      | some b =>
        have haL := qmin?_mem hmn
        have hbL := qmax?_mem hmx
        obtain ⟨rowa, hrowa, hsa⟩ := List.mem_filterMap.mp haL
        obtain ⟨rowb, hrowb, hsb⟩ := List.mem_filterMap.mp hbL
        obtain ⟨na, hna⟩ : ∃ m, mkScored m (scoreMin df items)
            (scoreMax df items) rowa ∈ simple_count_scores df items :=
          attachRanks_mem_of_mem 1 hrowa
        obtain ⟨nb, hnb⟩ : ∃ m, mkScored m (scoreMin df items)
            (scoreMax df items) rowb ∈ simple_count_scores df items :=
          attachRanks_mem_of_mem 1 hrowb
        have heq' : rowa.score = rowb.score := hall _ hna _ hnb
        rw [hsa, hsb] at heq'
        have hab : a = b := by simpa using heq'
        simp [scaledVal, hab]

/-- C6 amended witness: the top row of the concrete one-trial table has a
    defined score and its `Scaled_0_100` lies in `[0, 100]`. -/
theorem scaled_range_amended_witness :
    ∃ v, (⟨1, "A", 1, 0, 1, some 1, some 0, some (1, 0), some (1, 0),
        some 100⟩ : Scored).scaled = some v ∧ 0 ≤ v ∧ v ≤ 100 :=
  have hmem :
      (⟨1, "A", 1, 0, 1, some 1, some 0, some (1, 0), some (1, 0),
        some 100⟩ : Scored) ∈ simple_count_scores dfEx itemsEx := by
    rw [scores_dfEx_eval]
    exact List.mem_cons_self _ _
  (scaled_range_amended dfEx itemsEx).1 _ hmem 1 rfl

end MaxDiff
